import Mathlib

/-!
Verification of the strict perfume price-matching engine
(`matching_engine.py`, class `PerfumeMatchingEngine`).

The Python source is shallowly embedded below:

* text is `List Char` / `String` (Lean strings are lists of Unicode
  scalar values, matching Python `str` over the character set the
  program uses);
* Python's Unicode character classes `\d`, `\s`, `\w` are embedded by
  explicit code-point ranges covering ASCII plus the Arabic block that
  the engine's fixed vocabularies and its two-language data use
  (Arabic letters, Arabic-Indic and Extended Arabic-Indic digits);
* `str.lower` is `Char.toLower` (ASCII case folding; the Arabic block
  has no case);
* tabular rows are pairs of `Cell`s (the already-resolved name column
  and price column); `float(...)` is `parsePrice : Cell → Option ℚ`,
  parsing optional sign, integer digits and an optional decimal
  fraction (exponents, infinities and NaN payloads are outside the
  fragment the engine's data exercises), and failing (`ValueError` /
  `TypeError`) as `none`;
* the external fuzzy scorer `rapidfuzz.fuzz.WRatio` used through
  `process.extractOne` is an opaque collaborator: the engine is
  parametrised over `scorer : String → String → ℕ` (an integral 0–100
  similarity), and `extractOne` reproduces rapidfuzz's deterministic
  first-maximum selection.
-/

/-- Python `\s` on the engine's data: ASCII whitespace code points. -/
def isWs (c : Char) : Bool :=
  c.toNat == 32 || c.toNat == 9 || c.toNat == 10 || c.toNat == 13 ||
    c.toNat == 11 || c.toNat == 12

/-- Python `\d` on the engine's data: ASCII digits, Arabic-Indic digits
and Extended Arabic-Indic digits. -/
def isDigitCh (c : Char) : Bool :=
  (48 ≤ c.toNat && c.toNat ≤ 57) || (1632 ≤ c.toNat && c.toNat ≤ 1641) ||
    (1776 ≤ c.toNat && c.toNat ≤ 1785)

/-- Numeric value of a digit accepted by `isDigitCh` (Python `int`
parses all three ranges). -/
def digitVal (c : Char) : Nat :=
  if c.toNat ≤ 57 then c.toNat - 48
  else if c.toNat ≤ 1641 then c.toNat - 1632
  else c.toNat - 1776

/-- Python `\w` on the engine's data: ASCII alphanumerics, underscore,
and the Arabic letters and digits the vocabularies use. -/
def isWordCh (c : Char) : Bool :=
  (48 ≤ c.toNat && c.toNat ≤ 57) || (65 ≤ c.toNat && c.toNat ≤ 90) ||
    (97 ≤ c.toNat && c.toNat ≤ 122) || c.toNat == 95 ||
    (1569 ≤ c.toNat && c.toNat ≤ 1610) || (1632 ≤ c.toNat && c.toNat ≤ 1641) ||
    (1646 ≤ c.toNat && c.toNat ≤ 1747) || (1776 ≤ c.toNat && c.toNat ≤ 1785)

/-- Character action of `re.sub("[إأآا]", "ا", ·)`: every alif variant
becomes the bare alif. -/
def alifChar (c : Char) : Char :=
  if c = 'إ' ∨ c = 'أ' ∨ c = 'آ' ∨ c = 'ا' then 'ا' else c

/-- Character action of `re.sub("ة", "ه", ·)`. -/
def taChar (c : Char) : Char :=
  if c = 'ة' then 'ه' else c

/-- Does `pat` occur at the head of the list (`str.startswith`)? -/
def startsWithL : List Char → List Char → Bool
  | _, [] => true
  | [], _ :: _ => false
  | a :: as, b :: bs => a == b && startsWithL as bs

/-- Python substring containment `pat in hay`. -/
def containsSub (hay pat : List Char) : Bool :=
  match hay with
  | [] => pat.isEmpty
  | _ :: t => startsWithL hay pat || containsSub t pat

/-- Python `hay.replace(pat, "")`: remove every occurrence of `pat`,
scanning left to right, non-overlapping. -/
def removeAll (pat : List Char) (l : List Char) : List Char :=
  if hp : pat.isEmpty then l
  else
    match l with
    | [] => []
    | c :: t =>
      if startsWithL (c :: t) pat then removeAll pat (List.drop pat.length (c :: t))
      else c :: removeAll pat t
termination_by l.length
decreasing_by
  all_goals simp_all [List.length_drop, List.isEmpty_iff]
  exact List.length_pos.mpr hp

/-- One `foldr` step of whitespace splitting. -/
def stepSplit (c : Char) (acc : List (List Char)) : List (List Char) :=
  if isWs c then [] :: acc
  else
    match acc with
    | [] => [[c]]
    | t :: ts => (c :: t) :: ts

/-- Raw whitespace split: token fragments, possibly empty. -/
def splitAux (l : List Char) : List (List Char) := l.foldr stepSplit []

/-- Python `str.split()` with no argument: split on whitespace runs,
dropping empty tokens. -/
def splitWs (l : List Char) : List (List Char) :=
  (splitAux l).filter (fun t => !t.isEmpty)

/-- Python string comparison on tokens: lexicographic by code point. -/
def lexLe : List Char → List Char → Bool
  | [], _ => true
  | _ :: _, [] => false
  | a :: as, b :: bs =>
    if a.toNat < b.toNat then true
    else if b.toNat < a.toNat then false
    else lexLe as bs

/-- Python `" ".join`. -/
def joinSp : List (List Char) → List Char
  | [] => []
  | [t] => t
  | t :: ts => t ++ ' ' :: joinSp ts

/-- Python `str.strip()`: drop leading and trailing whitespace. -/
def stripL (l : List Char) : List Char :=
  ((l.dropWhile isWs).reverse.dropWhile isWs).reverse

/-- Python `int` on a digit string (all three digit ranges). -/
def digitsToNat (ds : List Char) : Nat :=
  ds.foldl (fun acc c => acc * 10 + digitVal c) 0

/-- The size regex `(\d+)\s*(?:ml|مل)` anchored at the head of `l`:
a nonempty digit run, optional whitespace, then a unit marker; yields
the captured integer. -/
def sizeAt (l : List Char) : Option Nat :=
  let ds := l.takeWhile isDigitCh
  if ds.isEmpty then none
  else
    let rest := (l.drop ds.length).dropWhile isWs
    if startsWithL rest ['m', 'l'] || startsWithL rest ['م', 'ل'] then
      some (digitsToNat ds)
    else none

/-- `re.search` for the size pattern: leftmost match wins. -/
def searchSize : List Char → Option Nat
  | [] => none
  | c :: t =>
    match sizeAt (c :: t) with
    | some v => some v
    | none => searchSize t

namespace PerfumeMatchingEngine

/-- `REJECTED` vocabulary (sample / decant, both languages). -/
def REJECTED : List String := ["عينة", "sample", "تقسيم", "decant"]

/-- `TESTER` vocabulary. -/
def TESTER : List String := ["تستر", "tester", "testeur"]

/-- `HAIR_MIST` vocabulary. -/
def HAIR_MIST : List String := ["عطر شعر", "hair mist"]

/-- `BODY_MIST` vocabulary. -/
def BODY_MIST : List String := ["body mist", "body spray", "ميست"]

/-- `SET` vocabulary. -/
def SET : List String := ["طقم", "set", "مجموعة", "gift set"]

/-- `NOISE` vocabulary stripped by the fingerprinter. -/
def NOISE : List String :=
  ["عطر", "perfume", "parfum", "ml", "مل",
   "edp", "edt", "eau", "de", "toilette",
   "spray", "intense", "original", "اصلي"]

/-- A spreadsheet cell as the loader sees it: a string, a number, or a
missing / non-numeric value (Python `None`; `str` renders it, `float`
raises `TypeError`). -/
inductive Cell where
  | str (s : String)
  | num (n : Int)
  | null
deriving DecidableEq

/-- Python `str(cell)`. -/
def pyStr : Cell → String
  | Cell.str s => s
  | Cell.num n => toString n
  | Cell.null => "None"

/-- Python `any(k in low for k in vocab)`. -/
def hasTok (low : List Char) (vocab : List String) : Bool :=
  vocab.any (fun k => containsSub low k.data)

/-- `_classify`: lowercase the name; veto on the rejection vocabulary;
otherwise resolve the variant type by first-match-wins priority and
extract the size via the regex search. Returns `(type, size, rejected)`. -/
def _classify (name : String) : String × Nat × Bool :=
  let low := name.data.map Char.toLower
  if hasTok low REJECTED then ("Rejected", 0, true)
  else
    let ptype :=
      if hasTok low SET then "Set"
      else if hasTok low HAIR_MIST then "Hair Mist"
      else if hasTok low BODY_MIST then "Body Mist"
      else if hasTok low TESTER then "Tester"
      else "Retail"
    let size := (searchSize low).getD 0
    (ptype, size, false)

/-- Core of `_fingerprint` on the character list of a string: lowercase,
normalise alif variants and ta marbuta, strip every noise word by
literal substring removal, keep only word characters and whitespace,
strip digits, then split, sort and rejoin. -/
def fpList (l : List Char) : List Char :=
  let t1 := l.map Char.toLower
  let t2 := (t1.map alifChar).map taChar
  let t3 := NOISE.foldl (fun acc w => removeAll w.data acc) t2
  let t4 := t3.filter (fun c => isWordCh c || isWs c)
  let t5 := t4.filter (fun c => !isDigitCh c)
  stripL (joinSp (List.mergeSort (splitWs t5) lexLe))

/-- `_fingerprint`: non-strings fingerprint to the empty string. -/
def _fingerprint : Cell → String
  | Cell.str s => String.mk (fpList s.data)
  | _ => ""

/-- The noise-removal fold of the fingerprinter, as a named stage. -/
def noiseFold (l : List Char) : List Char :=
  NOISE.foldl (fun acc w => removeAll w.data acc) l

/-- The character stream surviving the fingerprinter just before
splitting: lowercase, normalise, strip noise, keep word and whitespace
characters, strip digits. -/
def fpChars (l : List Char) : List Char :=
  ((noiseFold (((l.map Char.toLower).map alifChar).map taChar)).filter
    (fun c => isWordCh c || isWs c)).filter (fun c => !isDigitCh c)

/-- The sorted whitespace tokens of the fingerprinter. -/
def fpToks (l : List Char) : List (List Char) :=
  List.mergeSort (splitWs (fpChars l)) lexLe

/-- Python `float(cell)` returning `none` on `ValueError`/`TypeError`:
numbers pass through; strings are stripped and parsed as an optionally
signed decimal numeral. -/
def parsePrice : Cell → Option ℚ
  | Cell.num n => some (n : ℚ)
  | Cell.null => none
  | Cell.str s =>
    let t := stripL s.data
    let sr : Bool × List Char :=
      match t with
      | '+' :: r => (false, r)
      | '-' :: r => (true, r)
      | r => (false, r)
    let ds := sr.2.takeWhile isDigitCh
    match sr.2.drop ds.length with
    | [] =>
      if ds.isEmpty then none
      else some (if sr.1 then -(digitsToNat ds : ℚ) else (digitsToNat ds : ℚ))
    | '.' :: fr =>
      let fs := fr.takeWhile isDigitCh
      if !(fr.drop fs.length).isEmpty then none
      else if ds.isEmpty && fs.isEmpty then none
      else
        let v : ℚ := (digitsToNat ds : ℚ) + (digitsToNat fs : ℚ) / ((10 : ℚ) ^ fs.length)
        some (if sr.1 then -v else v)
    | _ => none

/-- The product dict built by `_load_products`. -/
structure Product where
  name : String
  price : ℚ
  ptype : String
  size : Nat
  fp : String
deriving DecidableEq

/-- `_load_products` over already-column-resolved rows
`(name cell, price cell)`: coerce the name cell to its string
rendering, classify it, silently skip rejected rows and rows whose
price does not parse, and keep row order. -/
def _load_products : List (Cell × Cell) → List Product
  | [] => []
  | (nc, pc) :: rest =>
    let raw := pyStr nc
    let r := _classify raw
    if r.2.2 then _load_products rest
    else
      match parsePrice pc with
      | none => _load_products rest
      | some price =>
        { name := raw, price := price, ptype := r.1, size := r.2.1,
          fp := _fingerprint (Cell.str raw) } :: _load_products rest

/-- The match dict appended by `run_full_analysis`; field names
transliterate the Arabic dict keys in source order. -/
structure MatchRecord where
  myName : String
  myType : String
  myPrice : ℚ
  compSource : String
  compName : String
  compPrice : ℚ
  sizeMl : Nat
  diff : ℚ
  decision : String
  score : Nat
deriving DecidableEq

/-- Python `round` (half to even) to an integer. -/
def roundHalfEvenZ (q : ℚ) : ℤ :=
  let f := ⌊q⌋
  let r := q - (f : ℚ)
  if r < 1 / 2 then f
  else if (1 : ℚ) / 2 < r then f + 1
  else if f % 2 = 0 then f else f + 1

/-- Python `round(q, 2)` on exact rationals. -/
def round2 (q : ℚ) : ℚ := (roundHalfEvenZ (q * 100) : ℚ) / 100

/-- One comparison step of `process.extractOne`: keep the incumbent
unless the new choice scores strictly higher. -/
def stepMax (scorer : String → String → Nat) (q : String)
    (b : String × Nat) (f2 : String) : String × Nat :=
  if scorer q f2 > b.2 then (f2, scorer q f2) else b

/-- `rapidfuzz.process.extractOne(q, fps, scorer)` with an integral
scorer and no cutoff: `none` on an empty list, otherwise the first
choice attaining the maximal score, with its score. -/
def extractOne (scorer : String → String → Nat) (q : String)
    (fps : List String) : Option (String × Nat) :=
  match fps with
  | [] => none
  | f :: rest => some (rest.foldl (stepMax scorer q) (f, scorer q f))

/-- The strict candidate filter: identical type and identical size. -/
def candidatesFor (p : Product) (comps : List Product) : List Product :=
  comps.filter (fun c => c.ptype == p.ptype && c.size == p.size)

/-- Loop body of `run_full_analysis` for one merchant product against
one competitor file: skip size-0 merchants, filter candidates strictly,
pick the best-scoring fingerprint, enforce the threshold, and build the
match record. -/
def matchOne (scorer : String → String → Nat) (minScore : Nat)
    (compName : String) (comps : List Product) (myP : Product) :
    Option MatchRecord :=
  if myP.size == 0 then none
  else
    let candidates := candidatesFor myP comps
    if candidates.isEmpty then none
    else
      let fps := candidates.map (fun c => c.fp)
      match extractOne scorer myP.fp fps with
      | none => none
      | some r =>
        if r.2 < minScore then none
        else
          match candidates.find? (fun c => c.fp == r.1) with
          | none => none
          | some best =>
            let diff := best.price - myP.price
            some { myName := myP.name, myType := myP.ptype, myPrice := myP.price,
                   compSource := compName, compName := best.name,
                   compPrice := best.price, sizeMl := myP.size,
                   diff := round2 diff,
                   decision :=
                     if diff < 0 then "🔴 خاسر"
                     else if 0 < diff then "🟢 قائد"
                     else "🟡 متعادل",
                   score := r.2 }

/-- `cf["name"].rsplit(".", 1)[0]`: drop the last dot-extension. -/
def dropExt (s : String) : String :=
  if s.data.contains '.' then
    String.mk ((((s.data.reverse).dropWhile (fun c => !(c == '.'))).drop 1).reverse)
  else s

/-- `run_full_analysis` over decoded tables: load the merchant
products, then for each competitor file in order append the match
records of each merchant product in order. -/
def run_full_analysis (scorer : String → String → Nat)
    (myRows : List (Cell × Cell))
    (compFiles : List (String × List (Cell × Cell)))
    (minScore : Nat) : List MatchRecord :=
  let myProducts := _load_products myRows
  compFiles.foldl
    (fun acc cf =>
      acc ++ myProducts.filterMap
        (matchOne scorer minScore (dropExt cf.1) (_load_products cf.2)))
    []

/-- Modelled from the spec: the type-resolution table as an ordered
list of (vocabulary, label) pairs, first matching vocabulary wins,
default label last. -/
def firstMatchLabel (low : List Char) : List (List String × String) → String
  | [] => "Retail"
  | (vocab, lbl) :: rest =>
    if hasTok low vocab then lbl
    else firstMatchLabel low rest

/-- Modelled from the spec: the priority order Set, Hair Mist,
Body Mist, Tester. -/
def typeTable : List (List String × String) :=
  [(SET, "Set"), (HAIR_MIST, "Hair Mist"), (BODY_MIST, "Body Mist"),
   (TESTER, "Tester")]

/-- Maximum of a list of scores. -/
def listMax (l : List Nat) : Nat := l.foldr Nat.max 0

end PerfumeMatchingEngine

namespace PerfumeMatchingEngine

/-! ### Helper lemmas about substring containment and classification -/

theorem startsWithL_append_self (p b : List Char) : startsWithL (p ++ b) p = true := by
  induction p with
  | nil => cases b <;> rfl
  | cons x xs ih => simp [startsWithL, ih]

theorem containsSub_of_starts (hay p : List Char) (h : startsWithL hay p = true) :
    containsSub hay p = true := by
  cases hay with
  | nil =>
    cases p with
    | nil => rfl
    | cons x xs => simp [startsWithL] at h
  | cons c t => simp [containsSub, h]

theorem containsSub_append (a p b : List Char) :
    containsSub (a ++ (p ++ b)) p = true := by
  induction a with
  | nil =>
    rw [List.nil_append]
    exact containsSub_of_starts _ _ (startsWithL_append_self p b)
  | cons x xs ih => simp [containsSub, ih]

theorem classify_rejected_eq (name : String) :
    (_classify name).2.2 = hasTok (name.data.map Char.toLower) REJECTED := by
  rcases Bool.eq_false_or_eq_true (hasTok (name.data.map Char.toLower) REJECTED) with hb | hb <;>
    simp [_classify, hb]

theorem classify_size_eq (name : String) :
    (_classify name).2.1 =
      if (_classify name).2.2 then 0
      else (searchSize (name.data.map Char.toLower)).getD 0 := by
  rcases Bool.eq_false_or_eq_true (hasTok (name.data.map Char.toLower) REJECTED) with hb | hb <;>
    simp [_classify, hb]

theorem load_products_not_rejected (rows : List (Cell × Cell)) :
    ∀ rec ∈ _load_products rows, (_classify rec.name).2.2 = false := by
  induction rows with
  | nil => intro rec h; simp [_load_products] at h
  | cons row rest ih =>
    intro rec hrec
    obtain ⟨nc, pc⟩ := row
    rw [_load_products] at hrec
    by_cases hr : (_classify (pyStr nc)).2.2
    · rw [if_pos hr] at hrec; exact ih rec hrec
    · rw [if_neg hr] at hrec
      cases hp : parsePrice pc with
      | none => rw [hp] at hrec; exact ih rec hrec
      | some p =>
        rw [hp] at hrec
        rcases List.mem_cons.mp hrec with h | h
        · subst h; simpa using hr
        · exact ih rec h

/-! ### C3 : the rejection veto -/

/-- C3: a name containing any rejection-vocabulary token anywhere
classifies as rejected — the result is exactly `("Rejected", 0, true)`,
with no type resolved and no size extracted — and no product record
built by the loader ever carries a name containing a rejection token. -/
theorem C3_rejection_veto (pre tok post : String) (rows : List (Cell × Cell))
    (htok : tok ∈ REJECTED) :
    _classify (pre ++ tok ++ post) = ("Rejected", 0, true) ∧
    ∀ rec ∈ _load_products rows,
      hasTok (rec.name.data.map Char.toLower) REJECTED = false := by
  constructor
  · have hlow : tok.data.map Char.toLower = tok.data := by
      simp only [REJECTED, List.mem_cons, List.not_mem_nil, or_false] at htok
      rcases htok with h | h | h | h <;> subst h <;> decide
    have hc : containsSub ((pre ++ tok ++ post).data.map Char.toLower) tok.data = true := by
      have hdata : (pre ++ tok ++ post).data = pre.data ++ (tok.data ++ post.data) := by
        simp [String.data_append]
      rw [hdata, List.map_append, List.map_append, hlow]
      exact containsSub_append _ _ _
    have hany : hasTok ((pre ++ tok ++ post).data.map Char.toLower) REJECTED = true := by
      simp only [hasTok]
      exact List.any_eq_true.mpr ⟨tok, htok, hc⟩
    simp only [_classify]
    rw [hany]
    simp
  · intro rec hrec
    have := load_products_not_rejected rows rec hrec
    rwa [classify_rejected_eq] at this

/-- C3 witness at a concrete input. -/
theorem C3_rejection_veto_witness :
    _classify ("Dior " ++ "sample" ++ " 10ml") = ("Rejected", 0, true) :=
  (C3_rejection_veto ("Dior ") ("sample") (" 10ml") [] (by decide)).1

/-! ### C4 : type priority -/

/-- C4: on every non-rejected name the classifier's variant type agrees
with first-match-wins evaluation of the ordered vocabulary table
Set, Hair Mist, Body Mist, Tester with default Retail; the type is
always one of those five labels; and a name matching both the Set and
the Tester vocabulary classifies as Set. -/
theorem C4_type_priority (name : String) (h : (_classify name).2.2 = false) :
    (_classify name).1 = firstMatchLabel (name.data.map Char.toLower) typeTable ∧
    ((_classify name).1 = "Set" ∨ (_classify name).1 = "Hair Mist" ∨
     (_classify name).1 = "Body Mist" ∨ (_classify name).1 = "Tester" ∨
     (_classify name).1 = "Retail") ∧
    ((hasTok (name.data.map Char.toLower) SET = true ∧
      hasTok (name.data.map Char.toLower) TESTER = true) →
      (_classify name).1 = "Set") := by
  rw [classify_rejected_eq] at h
  refine ⟨?_, ?_, ?_⟩
  · simp only [_classify, h, Bool.false_eq_true, if_false, typeTable, firstMatchLabel]
  · simp only [_classify, h, Bool.false_eq_true, if_false]
    all_goals try split_ifs <;> simp
  · intro ⟨hs, _⟩
    simp [_classify, h, hs]

/-- C4 witness: a name carrying both a Set token and a Tester token. -/
theorem C4_type_priority_witness :
    (_classify ("gift set tester 5ml")).1 = ("Set") :=
  (C4_type_priority ("gift set tester 5ml") (by decide)).2.2 (by decide)

/-! ### C9 : size extraction -/

theorem searchSize_eq_none_iff (l : List Char) :
    searchSize l = none ↔ ∀ i < l.length, sizeAt (l.drop i) = none := by
  induction l with
  | nil => simp [searchSize]
  | cons c t ih =>
    rw [searchSize]
    cases hs : sizeAt (c :: t) with
    | some v =>
      simp only [reduceCtorEq, false_iff, not_forall]
      refine ⟨0, ?_⟩
      simp [hs]
    | none =>
      simp only [ih]
      constructor
      · intro hall i hi
        cases i with
        | zero => simpa using hs
        | succ j => exact hall j (by simpa using hi)
      · intro hall i hi
        have := hall (i + 1) (by simpa using hi)
        simpa using this

theorem searchSize_first (l : List Char) (i v : Nat)
    (hbefore : ∀ j < i, sizeAt (l.drop j) = none)
    (hat : sizeAt (l.drop i) = some v) : searchSize l = some v := by
  induction l generalizing i with
  | nil => simp [List.drop_nil, sizeAt] at hat
  | cons c t ih =>
    cases i with
    | zero =>
      rw [List.drop_zero] at hat
      rw [searchSize, hat]
    | succ j =>
      have h0 : sizeAt (c :: t) = none := by simpa using hbefore 0 (Nat.succ_pos j)
      rw [searchSize, h0]
      exact ih j (fun k hk => by simpa using hbefore (k + 1) (by omega)) (by simpa using hat)

/-- C9: the classifier captures the integer of the first occurrence of
a digit run followed by an optional whitespace gap and a unit marker
(`ml` or the Arabic `مل`) in the lowercased name — `"Chanel No5 100ml"`
gives 100 and `"Dior 50 مل"` gives 50 — and the size is 0 whenever no
position of the lowercased name carries that pattern. -/
theorem C9_size_extraction :
    (_classify ("Chanel No5 100ml")).2.1 = 100 ∧
    (_classify ("Dior 50 مل")).2.1 = 50 ∧
    (∀ name : String,
      (∀ i < (name.data.map Char.toLower).length,
        sizeAt ((name.data.map Char.toLower).drop i) = none) →
      (_classify name).2.1 = 0) ∧
    (∀ name : String, ∀ i v : Nat, (_classify name).2.2 = false →
      (∀ j < i, sizeAt ((name.data.map Char.toLower).drop j) = none) →
      sizeAt ((name.data.map Char.toLower).drop i) = some v →
      (_classify name).2.1 = v) := by
  refine ⟨by decide, by decide, ?_, ?_⟩
  · intro name hall
    rw [classify_size_eq]
    have : searchSize (name.data.map Char.toLower) = none :=
      (searchSize_eq_none_iff _).mpr hall
    rw [this]
    cases hb : (_classify name).2.2 <;> simp
  · intro name i v hrej hbefore hat
    rw [classify_size_eq, hrej]
    rw [searchSize_first _ i v hbefore hat]
    rfl

/-- C9 witness: a name without a unit marker extracts size 0. -/
theorem C9_size_extraction_witness :
    (_classify ("Chanel No Five")).2.1 = 0 :=
  C9_size_extraction.2.2.1 ("Chanel No Five") (by decide)

end PerfumeMatchingEngine


namespace PerfumeMatchingEngine

/-! ### Lemmas about extractOne -/

theorem stepMax_fold_spec (scorer : String → String → Nat) (q : String)
    (rest : List String) : ∀ b : String × Nat, scorer q b.1 = b.2 →
    ((rest.foldl (stepMax scorer q) b).2
        = Nat.max b.2 (listMax (rest.map (scorer q)))) ∧
    ((rest.foldl (stepMax scorer q) b).1 = b.1 ∨
      (rest.foldl (stepMax scorer q) b).1 ∈ rest) ∧
    scorer q (rest.foldl (stepMax scorer q) b).1
        = (rest.foldl (stepMax scorer q) b).2 := by
  induction rest with
  | nil =>
    intro b hb
    refine ⟨?_, Or.inl rfl, hb⟩
    simp [listMax]
  | cons f2 rest' ih =>
    intro b hb
    rw [List.foldl_cons]
    rcases Nat.lt_or_ge b.2 (scorer q f2) with hgt | hle
    · have hstep : stepMax scorer q b f2 = (f2, scorer q f2) := by
        simp only [stepMax, gt_iff_lt]
        rw [if_pos hgt]
      rw [hstep]
      obtain ⟨h1, h2, h3⟩ := ih (f2, scorer q f2) rfl
      refine ⟨?_, ?_, h3⟩
      · rw [h1]
        dsimp only
        simp only [List.map_cons, listMax, List.foldr_cons, Nat.max_def]
        split_ifs <;> omega
      · rcases h2 with h | h
        · right; rw [h]; exact List.mem_cons_self _ _
        · right; exact List.mem_cons_of_mem _ h
    · have hstep : stepMax scorer q b f2 = b := by
        simp only [stepMax, gt_iff_lt]
        rw [if_neg (Nat.not_lt.mpr hle)]
      rw [hstep]
      obtain ⟨h1, h2, h3⟩ := ih b hb
      refine ⟨?_, ?_, h3⟩
      · rw [h1]
        simp only [List.map_cons, listMax, List.foldr_cons, Nat.max_def]
        split_ifs <;> omega
      · rcases h2 with h | h
        · left; exact h
        · right; exact List.mem_cons_of_mem _ h

theorem extractOne_isSome (scorer : String → String → Nat) (q : String)
    (fps : List String) (h : fps ≠ []) : (extractOne scorer q fps).isSome = true := by
  cases fps with
  | nil => exact absurd rfl h
  | cons f rest => simp [extractOne]

theorem extractOne_best (scorer : String → String → Nat) (q f : String) (s : Nat)
    (fps : List String) (h : extractOne scorer q fps = some (f, s)) :
    f ∈ fps ∧ scorer q f = s ∧ s = listMax (fps.map (scorer q)) := by
  cases fps with
  | nil => simp [extractOne] at h
  | cons f0 rest =>
    rw [extractOne] at h
    have hfold := Option.some.inj h
    obtain ⟨h1, h2, h3⟩ := stepMax_fold_spec scorer q rest (f0, scorer q f0) rfl
    rw [hfold] at h1 h2 h3
    dsimp only at h1 h2 h3
    refine ⟨?_, h3, ?_⟩
    · rcases h2 with hh | hh
      · rw [hh]; exact List.mem_cons_self _ _
      · exact List.mem_cons_of_mem _ hh
    · rw [h1]
      simp [listMax]

/-! ### C1 : the strict candidate filter -/

/-- C1: a competitor product is a scoring candidate exactly when its
variant type and size both equal the merchant product's (strict
equality); a size-0 merchant product is skipped and emits no record;
and every emitted record stems from a competitor of the merchant's
exact type and (nonzero) size, so a size-0 competitor is never
matched. -/
theorem C1_strict_filter (scorer : String → String → Nat) (ms : Nat)
    (nm : String) (comps : List Product) (m : Product) :
    (∀ c, c ∈ candidatesFor m comps ↔
      (c ∈ comps ∧ c.ptype = m.ptype ∧ c.size = m.size)) ∧
    (m.size = 0 → matchOne scorer ms nm comps m = none) ∧
    (∀ rec, matchOne scorer ms nm comps m = some rec →
      rec.sizeMl = m.size ∧ m.size ≠ 0 ∧
      ∃ c, c ∈ comps ∧ c.ptype = m.ptype ∧ c.size = m.size ∧ c.size ≠ 0 ∧
        rec.compName = c.name ∧ rec.compPrice = c.price) := by
  refine ⟨?_, ?_, ?_⟩
  · intro c
    simp [candidatesFor, List.mem_filter]
  · intro h0
    simp [matchOne, h0]
  · intro rec hrec
    simp only [matchOne] at hrec
    by_cases h0 : (m.size == 0) = true
    · rw [if_pos h0] at hrec; cases hrec
    · rw [if_neg h0] at hrec
      by_cases hemp : (candidatesFor m comps).isEmpty = true
      · rw [if_pos hemp] at hrec; cases hrec
      · rw [if_neg hemp] at hrec
        cases hex : extractOne scorer m.fp ((candidatesFor m comps).map (fun c => c.fp)) with
        | none => rw [hex] at hrec; exact Option.noConfusion hrec
        | some r =>
          rw [hex] at hrec
          dsimp only at hrec
          by_cases hlt : r.2 < ms
          · rw [if_pos hlt] at hrec; cases hrec
          · rw [if_neg hlt] at hrec
            cases hfind : (candidatesFor m comps).find? (fun c => c.fp == r.1) with
            | none => rw [hfind] at hrec; exact Option.noConfusion hrec
            | some best =>
              rw [hfind] at hrec
              dsimp only at hrec
              have hrec' := (Option.some.inj hrec).symm
              have hmem := List.mem_of_find?_eq_some hfind
              have hsz : m.size ≠ 0 := by simpa using h0
              unfold candidatesFor at hmem
              obtain ⟨hin, hcond⟩ := List.mem_filter.mp hmem
              simp only [Bool.and_eq_true, beq_iff_eq] at hcond
              refine ⟨by rw [hrec'], hsz, best, hin, hcond.1, hcond.2, ?_, ?_, ?_⟩
              · rw [hcond.2]; exact hsz
              · rw [hrec']
              · rw [hrec']

/-- C1 witness: a size-0 merchant product emits no record. -/
theorem C1_strict_filter_witness :
    matchOne (fun _ _ => 100) 75 ("A") []
      { name := ("x"), price := 0, ptype := ("Retail"), size := 0, fp := ("x") } = none :=
  (C1_strict_filter (fun _ _ => 100) 75 ("A") []
    { name := ("x"), price := 0, ptype := ("Retail"), size := 0, fp := ("x") }).2.1 rfl

/-! ### C6 : the threshold boundary -/

/-- C6: for a merchant product that is processed (nonzero size) and has
a non-empty candidate set, a record is emitted exactly when the best
candidate score reaches `min_score`: a best score of exactly
`min_score` is included and any best score below it (in particular
`min_score - 1`) is excluded. -/
theorem C6_threshold_boundary (scorer : String → String → Nat) (ms : Nat)
    (nm : String) (comps : List Product) (m : Product)
    (h0 : m.size ≠ 0) (hc : candidatesFor m comps ≠ []) :
    (matchOne scorer ms nm comps m).isSome = true ↔
      ms ≤ listMax ((candidatesFor m comps).map (fun c => scorer m.fp c.fp)) := by
  have h0' : (m.size == 0) = false := by simpa using h0
  have hemp : (candidatesFor m comps).isEmpty = false := by
    simpa [List.isEmpty_iff] using hc
  have hfps : (candidatesFor m comps).map (fun c => c.fp) ≠ [] := by
    simpa using hc
  obtain ⟨r, hex⟩ := Option.isSome_iff_exists.mp
    (extractOne_isSome scorer m.fp ((candidatesFor m comps).map (fun c => c.fp)) hfps)
  obtain ⟨f, s⟩ := r
  obtain ⟨hfmem, hfs, hsmax⟩ := extractOne_best scorer m.fp f s _ hex
  have hmax : s = listMax ((candidatesFor m comps).map (fun c => scorer m.fp c.fp)) := by
    rw [hsmax, List.map_map]
    rfl
  simp only [matchOne, h0', Bool.false_eq_true, if_false, hemp, hex]
  by_cases hlt : s < ms
  · rw [if_pos hlt]
    simp only [Option.isSome_none, Bool.false_eq_true, false_iff]
    omega
  · rw [if_neg hlt]
    obtain ⟨c0, hc0mem, hc0fp⟩ := List.mem_map.mp hfmem
    have hfound : ((candidatesFor m comps).find? (fun c => c.fp == f)).isSome = true :=
      List.find?_isSome.mpr ⟨c0, hc0mem, by simp [hc0fp]⟩
    obtain ⟨best, hfind⟩ := Option.isSome_iff_exists.mp hfound
    rw [hfind]
    simp only [Option.isSome_some, true_iff]
    omega

/-- C6 witness: with a constant scorer of exactly 75 and threshold 75 a
record is emitted; with a constant scorer of 74 it is not. -/
theorem C6_threshold_boundary_witness :
    (matchOne (fun _ _ => 75) 75 ("A")
      [{ name := ("y"), price := 0, ptype := ("Retail"), size := 100, fp := ("yf") }]
      { name := ("x"), price := 0, ptype := ("Retail"), size := 100, fp := ("xf") }).isSome = true ∧
    (matchOne (fun _ _ => 74) 75 ("A")
      [{ name := ("y"), price := 0, ptype := ("Retail"), size := 100, fp := ("yf") }]
      { name := ("x"), price := 0, ptype := ("Retail"), size := 100, fp := ("xf") }).isSome = false := by
  constructor
  · exact (C6_threshold_boundary (fun _ _ => 75) 75 ("A")
      [{ name := ("y"), price := 0, ptype := ("Retail"), size := 100, fp := ("yf") }]
      { name := ("x"), price := 0, ptype := ("Retail"), size := 100, fp := ("xf") }
      (by decide) (List.cons_ne_nil _ _)).mpr (by decide)
  · have h := C6_threshold_boundary (fun _ _ => 74) 75 ("A")
      [{ name := ("y"), price := 0, ptype := ("Retail"), size := 100, fp := ("yf") }]
      { name := ("x"), price := 0, ptype := ("Retail"), size := 100, fp := ("xf") }
      (by decide) (List.cons_ne_nil _ _)
    cases hb : (matchOne (fun _ _ => 74) 75 ("A")
      [{ name := ("y"), price := 0, ptype := ("Retail"), size := 100, fp := ("yf") }]
      { name := ("x"), price := 0, ptype := ("Retail"), size := 100, fp := ("xf") }).isSome with
    | false => rfl
    | true => exact absurd (h.mp hb) (by decide)

/-! ### C5 : price parsing -/

/-- C5 (amended): a row whose price cell does not parse as a real
number is skipped silently, contributing no record and no error, and
every record's price is exactly the parsed value of its row's price
cell; the loader does not reject negative parsed prices. -/
theorem C5_unparsable_skip (nc pc : Cell) (rest rows : List (Cell × Cell)) :
    (parsePrice pc = none →
      _load_products ((nc, pc) :: rest) = _load_products rest) ∧
    (∀ rec ∈ _load_products rows, ∃ row ∈ rows,
      pyStr row.1 = rec.name ∧ parsePrice row.2 = some rec.price) := by
  constructor
  · intro hnone
    rw [_load_products]
    by_cases hr : (_classify (pyStr nc)).2.2
    · rw [if_pos hr]
    · rw [if_neg hr, hnone]
  · induction rows with
    | nil => intro rec h; simp [_load_products] at h
    | cons row rest' ih =>
      intro rec hrec
      obtain ⟨nc', pc'⟩ := row
      rw [_load_products] at hrec
      by_cases hr : (_classify (pyStr nc')).2.2
      · rw [if_pos hr] at hrec
        obtain ⟨row', hrow', hprops⟩ := ih rec hrec
        exact ⟨row', List.mem_cons_of_mem _ hrow', hprops⟩
      · rw [if_neg hr] at hrec
        cases hp : parsePrice pc' with
        | none =>
          rw [hp] at hrec
          obtain ⟨row', hrow', hprops⟩ := ih rec hrec
          exact ⟨row', List.mem_cons_of_mem _ hrow', hprops⟩
        | some p =>
          rw [hp] at hrec
          rcases List.mem_cons.mp hrec with h | h
          · subst h
            exact ⟨(nc', pc'), List.mem_cons_self _ _, rfl, hp⟩
          · obtain ⟨row', hrow', hprops⟩ := ih rec h
            exact ⟨row', List.mem_cons_of_mem _ hrow', hprops⟩

/-- C5 witness: an unparsable price cell drops its row. -/
theorem C5_unparsable_skip_witness :
    _load_products [(Cell.str ("a 100ml"), Cell.str ("xx"))] = [] :=
  (C5_unparsable_skip (Cell.str ("a 100ml")) (Cell.str ("xx")) [] []).1 rfl

/-- C5 counterexample: the loader happily constructs a record with a
negative price from the parsable cell `"-5"`, refuting the claim that
no record with a negative price is ever constructed. -/
theorem C5_counterexample :
    ¬ (∀ rec ∈ _load_products [(Cell.str ("x"), Cell.str ("-5"))], 0 ≤ rec.price) := by
  intro h
  have hm : Product.mk ("x") (-((5 : ℕ) : ℚ)) ("Retail") 0
      (_fingerprint (Cell.str ("x"))) ∈
      _load_products [(Cell.str ("x"), Cell.str ("-5"))] :=
    List.mem_singleton.mpr rfl
  have := h _ hm
  norm_num at this

/-! ### C10 : name-cell coercion -/

/-- C10: the loader renders every name cell to a string before
classifying and fingerprinting it, so a missing or numeric name cell
still yields a record whenever its row is not rejected and its price
parses; and the standalone fingerprint of any non-string cell is the
empty string. -/
theorem C10_name_coercion (nc pc : Cell) (rest : List (Cell × Cell)) (p : ℚ)
    (hrej : (_classify (pyStr nc)).2.2 = false) (hp : parsePrice pc = some p) :
    (∀ c : Cell, (∀ s, c ≠ Cell.str s) → _fingerprint c = "") ∧
    _load_products ((nc, pc) :: rest) =
      { name := pyStr nc, price := p, ptype := (_classify (pyStr nc)).1,
        size := (_classify (pyStr nc)).2.1,
        fp := _fingerprint (Cell.str (pyStr nc)) } :: _load_products rest := by
  constructor
  · intro c hc
    cases c with
    | str s => exact absurd rfl (hc s)
    | num n => rfl
    | null => rfl
  · rw [_load_products]
    rw [if_neg (by rw [hrej]; exact Bool.false_ne_true), hp]

/-- C10 witness: a missing name cell (rendered `"None"`) still loads,
and a numeric cell fingerprints to the empty string. -/
theorem C10_name_coercion_witness :
    _load_products [(Cell.null, Cell.str ("7"))] =
      [{ name := ("None"), price := ((7 : ℕ) : ℚ), ptype := ("Retail"), size := 0,
         fp := _fingerprint (Cell.str ("None")) }] ∧
    _fingerprint (Cell.num 3) = "" := by
  have h := C10_name_coercion Cell.null (Cell.str ("7")) [] ((7 : ℕ) : ℚ)
    (by decide) rfl
  exact ⟨h.2, h.1 (Cell.num 3) (fun s hs => Cell.noConfusion hs)⟩

/-! ### C2 : ordering of the output list -/

theorem foldl_append_eq_flatten {α β : Type} (F : α → List β) :
    ∀ (l : List α) (acc : List β),
      l.foldl (fun a x => a ++ F x) acc = acc ++ (l.map F).flatten := by
  intro l
  induction l with
  | nil => intro acc; simp
  | cons x xs ih =>
    intro acc
    rw [List.foldl_cons, ih, List.map_cons, List.flatten_cons, List.append_assoc]

/-- C2 (amended): the output list is grouped by competitor-file
iteration order first — all records of an earlier competitor file
precede all records of a later one — and within one competitor file the
records follow merchant-product iteration order. -/
theorem C2_file_major_order (scorer : String → String → Nat)
    (myRows : List (Cell × Cell))
    (compFiles : List (String × List (Cell × Cell))) (minScore : Nat) :
    run_full_analysis scorer myRows compFiles minScore =
      (compFiles.map (fun cf =>
        (_load_products myRows).filterMap
          (matchOne scorer minScore (dropExt cf.1) (_load_products cf.2)))).flatten := by
  simp only [run_full_analysis]
  rw [foldl_append_eq_flatten
    (fun cf => (_load_products myRows).filterMap
      (matchOne scorer minScore (dropExt cf.1) (_load_products cf.2))) compFiles []]
  rw [List.nil_append]

end PerfumeMatchingEngine


namespace PerfumeMatchingEngine

unseal removeAll List.merge List.mergeSort in
/-- C2 counterexample: with two merchant products and two competitor
files that all match (constant scorer 100), the concrete output order
is file-major — a record of the second merchant product (from the first
file) precedes a record of the first merchant product (from the second
file) — so the output is not ordered by merchant-product iteration
order first. -/
theorem C2_counterexample :
    ¬ List.Pairwise
      (fun a b =>
        List.indexOf a.myName [("aaa 100ml" : String), ("bbb 100ml")] ≤
          List.indexOf b.myName [("aaa 100ml" : String), ("bbb 100ml")])
      (run_full_analysis (fun _ _ => 100)
        [(Cell.str ("aaa 100ml"), Cell.str ("10")),
         (Cell.str ("bbb 100ml"), Cell.str ("10"))]
        [(("A.csv"), [(Cell.str ("ccc 100ml"), Cell.str ("20"))]),
         (("B.csv"), [(Cell.str ("ddd 100ml"), Cell.str ("20"))])]
        75) := by decide

end PerfumeMatchingEngine


namespace PerfumeMatchingEngine

/-! ### Character-level lemmas for the fingerprint pipeline -/

theorem char_toNat_ofNat (n : Nat) (h : n.isValidChar) : (Char.ofNat n).toNat = n := by
  simp [Char.ofNat, h, Char.toNat, Char.ofNatAux, UInt32.ofNatCore, UInt32.toNat]

theorem toLower_toNat (c : Char) :
    (Char.toLower c).toNat =
      if 65 ≤ c.toNat ∧ c.toNat ≤ 90 then c.toNat + 32 else c.toNat := by
  simp only [Char.toLower]
  by_cases h : 65 ≤ c.toNat ∧ c.toNat ≤ 90
  · rw [if_pos ⟨h.1, h.2⟩, if_pos h]
    exact char_toNat_ofNat _ (Or.inl (by omega))
  · rw [if_neg (fun hc => h ⟨hc.1, hc.2⟩), if_neg h]

theorem toLower_eq_self (c : Char) (h : ¬(65 ≤ c.toNat ∧ c.toNat ≤ 90)) :
    Char.toLower c = c := by
  simp only [Char.toLower]
  rw [if_neg (fun hc => h ⟨hc.1, hc.2⟩)]

theorem toLower_toLower (c : Char) :
    Char.toLower (Char.toLower c) = Char.toLower c := by
  apply toLower_eq_self
  rw [toLower_toNat]
  by_cases h : 65 ≤ c.toNat ∧ c.toNat ≤ 90
  · rw [if_pos h]; omega
  · rw [if_neg h]; omega

theorem isWs_toLower (c : Char) : isWs (Char.toLower c) = isWs c := by
  rw [Bool.eq_iff_iff]
  simp only [isWs, Bool.or_eq_true, beq_iff_eq, toLower_toNat]
  by_cases h : 65 ≤ c.toNat ∧ c.toNat ≤ 90
  · rw [if_pos h]; omega
  · rw [if_neg h]

theorem isWs_alifChar (c : Char) : isWs (alifChar c) = isWs c := by
  by_cases h : c = 'إ' ∨ c = 'أ' ∨ c = 'آ' ∨ c = 'ا'
  · simp only [alifChar, if_pos h]
    rcases h with h | h | h | h <;> subst h <;> decide
  · simp only [alifChar, if_neg h]

theorem isWs_taChar (c : Char) : isWs (taChar c) = isWs c := by
  by_cases h : c = 'ة'
  · simp only [taChar, if_pos h]; subst h; decide
  · simp only [taChar, if_neg h]

theorem toLower_fixed_pipe (c : Char) :
    Char.toLower (taChar (alifChar (Char.toLower c))) =
      taChar (alifChar (Char.toLower c)) := by
  have hdl : Char.toLower (Char.toLower c) = Char.toLower c := toLower_toLower c
  by_cases ha : Char.toLower c = 'إ' ∨ Char.toLower c = 'أ' ∨
      Char.toLower c = 'آ' ∨ Char.toLower c = 'ا'
  · simp only [alifChar, if_pos ha]; decide
  · simp only [alifChar, if_neg ha]
    by_cases ht : Char.toLower c = 'ة'
    · simp only [taChar, if_pos ht]; decide
    · simp only [taChar, if_neg ht]; exact hdl

theorem alifChar_fixed_pipe (x : Char) :
    alifChar (taChar (alifChar x)) = taChar (alifChar x) := by
  by_cases ha : x = 'إ' ∨ x = 'أ' ∨ x = 'آ' ∨ x = 'ا'
  · simp only [alifChar, if_pos ha]; decide
  · simp only [alifChar, if_neg ha]
    by_cases ht : x = 'ة'
    · simp only [taChar, if_pos ht]; decide
    · simp only [taChar, if_neg ht]
      simp only [alifChar, if_neg ha]

theorem taChar_fixed_pipe (x : Char) :
    taChar (taChar (alifChar x)) = taChar (alifChar x) := by
  by_cases ha : x = 'إ' ∨ x = 'أ' ∨ x = 'آ' ∨ x = 'ا'
  · simp only [alifChar, if_pos ha]; decide
  · simp only [alifChar, if_neg ha]
    by_cases ht : x = 'ة'
    · simp only [taChar, if_pos ht]; decide
    · simp only [taChar, if_neg ht, if_neg ht]

theorem map_eq_self_of {f : Char → Char} :
    ∀ l : List Char, (∀ x ∈ l, f x = x) → l.map f = l := by
  intro l
  induction l with
  | nil => intro _; rfl
  | cons x xs ih =>
    intro h
    rw [List.map_cons, h x (List.mem_cons_self _ _),
      ih (fun y hy => h y (List.mem_cons_of_mem _ hy))]

/-! ### Whitespace-split lemmas -/

theorem stepSplit_ne_nil (c : Char) (acc : List (List Char)) :
    stepSplit c acc ≠ [] := by
  simp only [stepSplit]
  split_ifs
  · exact List.cons_ne_nil _ _
  · cases acc <;> exact List.cons_ne_nil _ _

theorem foldr_stepSplit_nil_eq_nil (x : List Char)
    (h : x.foldr stepSplit [] = []) : x = [] := by
  cases x with
  | nil => rfl
  | cons c t => exact absurd h (stepSplit_ne_nil _ _)

theorem foldr_stepSplit_boxed_ne_nil (x : List Char) :
    x.foldr stepSplit [[]] ≠ [] := by
  cases x with
  | nil => exact List.cons_ne_nil _ _
  | cons c t => exact stepSplit_ne_nil _ _

theorem stepSplit_append (c : Char) (L A : List (List Char)) (h : L ≠ []) :
    stepSplit c (L ++ A) = stepSplit c L ++ A := by
  simp only [stepSplit]
  split_ifs
  · rfl
  · cases L with
    | nil => exact absurd rfl h
    | cons t ts => rfl

theorem foldr_stepSplit_shift (x : List Char) (A : List (List Char)) :
    x.foldr stepSplit ([] :: A) = x.foldr stepSplit [[]] ++ A := by
  induction x with
  | nil => rfl
  | cons c t ih =>
    rw [List.foldr_cons, List.foldr_cons, ih,
      stepSplit_append c _ A (foldr_stepSplit_boxed_ne_nil t)]

theorem foldr_stepSplit_boxed (x : List Char) :
    x.foldr stepSplit [[]] = x.foldr stepSplit [] ∨
      x.foldr stepSplit [[]] = x.foldr stepSplit [] ++ [[]] := by
  induction x with
  | nil => right; rfl
  | cons c t ih =>
    rw [List.foldr_cons, List.foldr_cons]
    rcases ih with ih | ih
    · left; rw [ih]
    · cases ht : t.foldr stepSplit [] with
      | nil =>
        have ht' : t = [] := foldr_stepSplit_nil_eq_nil t ht
        subst ht'
        by_cases hc : isWs c
        · right; simp [stepSplit, hc]
        · left; simp [stepSplit, hc]
      | cons L Ls =>
        right
        rw [ih, ht, stepSplit_append c _ [[]] (List.cons_ne_nil _ _)]

theorem splitWs_boxed (x : List Char) :
    (x.foldr stepSplit [[]]).filter (fun t => !t.isEmpty) = splitWs x := by
  rcases foldr_stepSplit_boxed x with h | h <;>
    simp [splitWs, splitAux, h, List.filter_append]

theorem splitWs_append_ws (x y : List Char) (c : Char) (hc : isWs c = true) :
    splitWs (x ++ c :: y) = splitWs x ++ splitWs y := by
  have h1 : splitAux (x ++ c :: y) = x.foldr stepSplit [[]] ++ splitAux y := by
    simp only [splitAux, List.foldr_append, List.foldr_cons]
    rw [show stepSplit c (y.foldr stepSplit []) = [] :: y.foldr stepSplit [] by
      simp [stepSplit, hc]]
    exact foldr_stepSplit_shift x _
  rw [splitWs, h1, List.filter_append, splitWs_boxed]
  rfl

theorem splitAux_wsFree (l : List Char) (hl : l ≠ [])
    (hws : ∀ c ∈ l, isWs c = false) : splitAux l = [l] := by
  induction l with
  | nil => exact absurd rfl hl
  | cons c t ih =>
    have hc : isWs c = false := hws c (List.mem_cons_self _ _)
    cases t with
    | nil => simp [splitAux, stepSplit, hc]
    | cons c2 t2 =>
      have ht : splitAux (c2 :: t2) = [c2 :: t2] :=
        ih (List.cons_ne_nil _ _)
          (fun x hx => hws x (List.mem_cons_of_mem _ hx))
      simp only [splitAux, List.foldr_cons] at ht ⊢
      rw [ht]
      simp [stepSplit, hc]

theorem splitWs_wsFree (l : List Char) (hl : l ≠ [])
    (hws : ∀ c ∈ l, isWs c = false) : splitWs l = [l] := by
  rw [splitWs, splitAux_wsFree l hl hws]
  simp [List.isEmpty_iff, hl]

theorem mem_splitAux_chars (l : List Char) :
    ∀ t ∈ splitAux l, ∀ c ∈ t, isWs c = false ∧ c ∈ l := by
  induction l with
  | nil => intro t ht; simp [splitAux] at ht
  | cons c0 t0 ih =>
    intro t ht c hc
    simp only [splitAux, List.foldr_cons] at ht
    by_cases h0 : isWs c0
    · simp only [stepSplit, h0, if_true] at ht
      rcases List.mem_cons.mp ht with h | h
      · subst h; simp at hc
      · obtain ⟨hw, hm⟩ := ih t h c hc
        exact ⟨hw, List.mem_cons_of_mem _ hm⟩
    · simp only [stepSplit, h0, if_false] at ht
      cases hsa : splitAux t0 with
      | nil =>
        rw [show List.foldr stepSplit [] t0 = splitAux t0 from rfl, hsa] at ht
        simp at ht
        subst ht
        rcases List.mem_singleton.mp hc with h
        subst h
        exact ⟨by simpa using h0, List.mem_cons_self _ _⟩
      | cons t1 ts =>
        rw [show List.foldr stepSplit [] t0 = splitAux t0 from rfl, hsa] at ht
        rcases List.mem_cons.mp ht with h | h
        · subst h
          rcases List.mem_cons.mp hc with h | h
          · subst h; exact ⟨by simpa using h0, List.mem_cons_self _ _⟩
          · obtain ⟨hw, hm⟩ := ih t1 (by rw [hsa]; exact List.mem_cons_self _ _) c h
            exact ⟨hw, List.mem_cons_of_mem _ hm⟩
        · obtain ⟨hw, hm⟩ := ih t (by rw [hsa]; exact List.mem_cons_of_mem _ h) c hc
          exact ⟨hw, List.mem_cons_of_mem _ hm⟩

theorem mem_splitWs (l : List Char) :
    ∀ t ∈ splitWs l, t ≠ [] ∧ ∀ c ∈ t, isWs c = false ∧ c ∈ l := by
  intro t ht
  rw [splitWs] at ht
  obtain ⟨hmem, hne⟩ := List.mem_filter.mp ht
  refine ⟨by simpa [List.isEmpty_iff] using hne, ?_⟩
  exact mem_splitAux_chars l t hmem

end PerfumeMatchingEngine


namespace PerfumeMatchingEngine

/-! ### Lemmas about literal substring removal -/

theorem removeAll_nil (pat : List Char) : removeAll pat [] = [] := by
  rw [removeAll]
  split <;> rfl

theorem removeAll_nil_pat (l : List Char) : removeAll [] l = l := by
  rw [removeAll.eq_def]
  rfl

theorem removeAll_cons (pat : List Char) (hpat : pat ≠ []) (x : Char) (t : List Char) :
    removeAll pat (x :: t) =
      if startsWithL (x :: t) pat then removeAll pat ((x :: t).drop pat.length)
      else x :: removeAll pat t := by
  rw [removeAll, dif_neg (by simpa [List.isEmpty_iff] using hpat)]

theorem startsWithL_length_le (pat : List Char) :
    ∀ a, startsWithL a pat = true → pat.length ≤ a.length := by
  induction pat with
  | nil => intro a _; simp
  | cons p ps ih =>
    intro a h
    cases a with
    | nil => simp [startsWithL] at h
    | cons x a' =>
      simp only [startsWithL, Bool.and_eq_true] at h
      have := ih a' h.2
      simp only [List.length_cons]
      omega

theorem startsWithL_append_ws (pat : List Char)
    (hws : ∀ x ∈ pat, isWs x = false) (c : Char) (hc : isWs c = true) :
    ∀ a b, startsWithL (a ++ c :: b) pat = startsWithL a pat := by
  induction pat with
  | nil => intro a b; cases a <;> rfl
  | cons p ps ih =>
    intro a b
    have hp : isWs p = false := hws p (List.mem_cons_self _ _)
    cases a with
    | nil =>
      have hcp : (c == p) = false := by
        apply beq_eq_false_iff_ne.mpr
        intro h
        rw [h, hp] at hc
        cases hc
      simp [startsWithL, hcp]
    | cons x a' =>
      simp only [List.cons_append, startsWithL, List.append_eq]
      rw [ih (fun y hy => hws y (List.mem_cons_of_mem _ hy)) a' b]

theorem removeAll_head_ws (pat : List Char) (hpat : pat ≠ [])
    (hws : ∀ x ∈ pat, isWs x = false) (c : Char) (hc : isWs c = true)
    (b : List Char) : removeAll pat (c :: b) = c :: removeAll pat b := by
  cases pat with
  | nil => exact absurd rfl hpat
  | cons p ps =>
    have hp : isWs p = false := hws p (List.mem_cons_self _ _)
    have hcp : (c == p) = false := by
      apply beq_eq_false_iff_ne.mpr
      intro h
      rw [h, hp] at hc
      cases hc
    rw [removeAll_cons _ hpat]
    rw [if_neg (by simp [startsWithL, hcp])]

theorem removeAll_append_ws_n (pat : List Char) (hpat : pat ≠ [])
    (hws : ∀ x ∈ pat, isWs x = false) (c : Char) (hc : isWs c = true) :
    ∀ n a b, a.length ≤ n →
      removeAll pat (a ++ c :: b) = removeAll pat a ++ c :: removeAll pat b := by
  intro n
  induction n with
  | zero =>
    intro a b hl
    have ha : a = [] := by cases a with | nil => rfl | cons x t => simp at hl
    subst ha
    rw [List.nil_append, removeAll_nil, List.nil_append,
      removeAll_head_ws pat hpat hws c hc b]
  | succ n ihn =>
    intro a b hl
    cases a with
    | nil =>
      rw [List.nil_append, removeAll_nil, List.nil_append,
        removeAll_head_ws pat hpat hws c hc b]
    | cons x a' =>
      have hsw : startsWithL ((x :: a') ++ c :: b) pat = startsWithL (x :: a') pat :=
        startsWithL_append_ws pat hws c hc (x :: a') b
      rw [List.cons_append, removeAll_cons _ hpat, removeAll_cons _ hpat]
      rw [← List.cons_append, hsw]
      by_cases hs : startsWithL (x :: a') pat = true
      · rw [if_pos hs, if_pos hs]
        have hle : pat.length ≤ (x :: a').length := startsWithL_length_le pat _ hs
        rw [List.drop_append_of_le_length hle]
        apply ihn
        have h1 : 0 < pat.length := List.length_pos.mpr hpat
        simp only [List.length_drop, List.length_cons] at hl ⊢
        omega
      · rw [if_neg hs, if_neg hs,
          ihn a' b (by simp only [List.length_cons] at hl; omega)]
        rfl

theorem removeAll_append_ws (pat : List Char) (hpat : pat ≠ [])
    (hws : ∀ x ∈ pat, isWs x = false) (c : Char) (hc : isWs c = true)
    (a b : List Char) :
    removeAll pat (a ++ c :: b) = removeAll pat a ++ c :: removeAll pat b :=
  removeAll_append_ws_n pat hpat hws c hc a.length a b le_rfl

theorem mem_removeAll_n (pat : List Char) :
    ∀ n l, l.length ≤ n → ∀ x ∈ removeAll pat l, x ∈ l := by
  intro n
  induction n with
  | zero =>
    intro l hl x hx
    have : l = [] := by cases l with | nil => rfl | cons c t => simp at hl
    subst this
    rw [removeAll_nil] at hx
    exact hx
  | succ n ihn =>
    intro l hl x hx
    by_cases hpat : pat = []
    · subst hpat; rw [removeAll_nil_pat] at hx; exact hx
    · cases l with
      | nil => rw [removeAll_nil] at hx; exact hx
      | cons c t =>
        rw [removeAll_cons _ hpat] at hx
        by_cases hs : startsWithL (c :: t) pat = true
        · rw [if_pos hs] at hx
          have h1 : 0 < pat.length := List.length_pos.mpr hpat
          have hx' := ihn ((c :: t).drop pat.length)
            (by simp only [List.length_drop, List.length_cons] at hl ⊢; omega) x hx
          exact List.mem_of_mem_drop hx'
        · rw [if_neg hs] at hx
          rcases List.mem_cons.mp hx with h | h
          · subst h; exact List.mem_cons_self _ _
          · exact List.mem_cons_of_mem _
              (ihn t (by simpa using Nat.le_of_succ_le_succ (by simpa using hl)) x h)

theorem mem_removeAll (pat l : List Char) :
    ∀ x ∈ removeAll pat l, x ∈ l :=
  mem_removeAll_n pat l.length l le_rfl

theorem containsSub_nil_pat (l : List Char) : containsSub l [] = true := by
  cases l <;> simp [containsSub, startsWithL]

theorem removeAll_of_not_contains (pat : List Char) :
    ∀ l, containsSub l pat = false → removeAll pat l = l := by
  intro l
  induction l with
  | nil => intro _; exact removeAll_nil pat
  | cons c t ih =>
    intro h
    have hpat : pat ≠ [] := by
      intro hp
      subst hp
      rw [containsSub_nil_pat] at h
      cases h
    simp only [containsSub, Bool.or_eq_false_iff] at h
    rw [removeAll_cons _ hpat, if_neg (by simp [h.1]), ih h.2]

/-! ### Lemmas about the noise-word fold -/

theorem foldRemove_nil (vocab : List String) :
    vocab.foldl (fun acc w => removeAll w.data acc) [] = [] := by
  induction vocab with
  | nil => rfl
  | cons w ws ih => rw [List.foldl_cons, removeAll_nil]; exact ih

theorem foldRemove_append_ws (vocab : List String)
    (hv : ∀ w ∈ vocab, w.data ≠ [] ∧ ∀ x ∈ w.data, isWs x = false)
    (c : Char) (hc : isWs c = true) :
    ∀ a b, vocab.foldl (fun acc w => removeAll w.data acc) (a ++ c :: b) =
      vocab.foldl (fun acc w => removeAll w.data acc) a ++
        c :: vocab.foldl (fun acc w => removeAll w.data acc) b := by
  induction vocab with
  | nil => intro a b; rfl
  | cons w ws ih =>
    intro a b
    obtain ⟨hne, hws⟩ := hv w (List.mem_cons_self _ _)
    simp only [List.foldl_cons]
    rw [removeAll_append_ws w.data hne hws c hc a b]
    exact ih (fun y hy => hv y (List.mem_cons_of_mem _ hy)) _ _

theorem mem_foldRemove (vocab : List String) :
    ∀ l x, x ∈ vocab.foldl (fun acc w => removeAll w.data acc) l → x ∈ l := by
  induction vocab with
  | nil => intro l x h; exact h
  | cons w ws ih =>
    intro l x h
    rw [List.foldl_cons] at h
    exact mem_removeAll w.data l x (ih (removeAll w.data l) x h)

theorem foldRemove_id (vocab : List String) (l : List Char)
    (h : ∀ w ∈ vocab, containsSub l w.data = false) :
    vocab.foldl (fun acc w => removeAll w.data acc) l = l := by
  induction vocab with
  | nil => rfl
  | cons w ws ih =>
    rw [List.foldl_cons, removeAll_of_not_contains w.data l
      (h w (List.mem_cons_self _ _))]
    exact ih (fun y hy => h y (List.mem_cons_of_mem _ hy))

end PerfumeMatchingEngine


namespace PerfumeMatchingEngine

/-! ### Distribution of pipeline stages over whitespace splitting -/

theorem dropWhile_head_false {p : Char → Bool} :
    ∀ (l : List Char) (c : Char) (b : List Char),
      l.dropWhile p = c :: b → p c = false := by
  intro l
  induction l with
  | nil => intro c b h; simp at h
  | cons x xs ih =>
    intro c b h
    rw [List.dropWhile_cons] at h
    by_cases hx : p x = true
    · rw [if_pos hx] at h; exact ih c b h
    · rw [if_neg hx] at h
      obtain ⟨h1, _⟩ := List.cons.inj h
      rw [← h1]
      simpa using hx

theorem splitWs_dist_wsFree (F : List Char → List Char)
    (hF2 : ∀ t, (∀ c ∈ t, isWs c = false) → ∀ c ∈ F t, isWs c = false)
    (hF3 : F [] = [])
    (l : List Char) (hl : ∀ c ∈ l, isWs c = false) :
    splitWs (F l) = ((splitWs l).map F).filter (fun t => !t.isEmpty) := by
  by_cases hnil : l = []
  · subst hnil
    rw [hF3]
    simp [splitWs, splitAux]
  · have h1 : splitWs l = [l] := splitWs_wsFree l hnil hl
    have hFws : ∀ c ∈ F l, isWs c = false := hF2 l hl
    by_cases hFnil : F l = []
    · rw [hFnil, h1]
      simp [splitWs, splitAux, hFnil]
    · rw [splitWs_wsFree (F l) hFnil hFws, h1]
      simp [List.isEmpty_iff, hFnil]

theorem splitWs_dist_n (F : List Char → List Char)
    (hF1 : ∀ a c b, isWs c = true → F (a ++ c :: b) = F a ++ c :: F b)
    (hF2 : ∀ t, (∀ c ∈ t, isWs c = false) → ∀ c ∈ F t, isWs c = false)
    (hF3 : F [] = []) :
    ∀ n l, l.length ≤ n →
      splitWs (F l) = ((splitWs l).map F).filter (fun t => !t.isEmpty) := by
  intro n
  induction n with
  | zero =>
    intro l hl
    have : l = [] := by cases l with | nil => rfl | cons c t => simp at hl
    subst this
    exact splitWs_dist_wsFree F hF2 hF3 [] (by intro c hc; simp at hc)
  | succ n ihn =>
    intro l hl
    by_cases hws : l.any isWs = true
    · obtain ⟨c0, hc0mem, hc0⟩ := List.any_eq_true.mp hws
      have hsplit : l.takeWhile (fun c => !isWs c) ++ l.dropWhile (fun c => !isWs c) = l :=
        List.takeWhile_append_dropWhile _ l
      have hdne : l.dropWhile (fun c => !isWs c) ≠ [] := by
        intro h0
        rw [h0, List.append_nil] at hsplit
        have hall : ∀ c ∈ l, isWs c = false := by
          intro c hc
          rw [← hsplit] at hc
          simpa using List.mem_takeWhile_imp hc
        rw [hall c0 hc0mem] at hc0
        cases hc0
      obtain ⟨c, b, hdcb⟩ : ∃ c b, l.dropWhile (fun c => !isWs c) = c :: b := by
        cases hd : l.dropWhile (fun c => !isWs c) with
        | nil => exact absurd hd hdne
        | cons c b => exact ⟨c, b, rfl⟩
      have hcws : isWs c = true := by
        have := dropWhile_head_false l c b hdcb
        simpa using this
      have hl_eq : l = l.takeWhile (fun c => !isWs c) ++ c :: b := by
        conv_lhs => rw [← hsplit]
        rw [hdcb]
      have haws : ∀ x ∈ l.takeWhile (fun c => !isWs c), isWs x = false := by
        intro x hx
        simpa using List.mem_takeWhile_imp hx
      have hb_len : b.length ≤ n := by
        have hlen := congrArg List.length hl_eq
        simp only [List.length_append, List.length_cons] at hlen
        omega
      rw [hl_eq, hF1 _ c b hcws, splitWs_append_ws _ _ c hcws,
        splitWs_append_ws _ _ c hcws]
      rw [splitWs_dist_wsFree F hF2 hF3 _ haws, ihn b hb_len]
      rw [List.map_append, List.filter_append]
    · have hall : ∀ c ∈ l, isWs c = false := by
        intro c hc
        rcases Bool.eq_false_or_eq_true (isWs c) with h | h
        · exact absurd (List.any_eq_true.mpr ⟨c, hc, h⟩) (by simpa using hws)
        · exact h
      exact splitWs_dist_wsFree F hF2 hF3 l hall

theorem splitWs_dist (F : List Char → List Char)
    (hF1 : ∀ a c b, isWs c = true → F (a ++ c :: b) = F a ++ c :: F b)
    (hF2 : ∀ t, (∀ c ∈ t, isWs c = false) → ∀ c ∈ F t, isWs c = false)
    (hF3 : F [] = []) (l : List Char) :
    splitWs (F l) = ((splitWs l).map F).filter (fun t => !t.isEmpty) :=
  splitWs_dist_n F hF1 hF2 hF3 l.length l le_rfl

theorem splitAux_map (f : Char → Char) (hf : ∀ c, isWs (f c) = isWs c) :
    ∀ l, splitAux (l.map f) = (splitAux l).map (List.map f) := by
  intro l
  induction l with
  | nil => rfl
  | cons c t ih =>
    show stepSplit (f c) (splitAux (t.map f)) = (stepSplit c (splitAux t)).map (List.map f)
    rw [ih]
    by_cases hc : isWs c = true
    · simp [stepSplit, hf c, hc]
    · have hfc : isWs (f c) = false := by rw [hf c]; simpa using hc
      simp only [stepSplit, hfc, hc, if_false, Bool.false_eq_true]
      cases splitAux t with
      | nil => rfl
      | cons t1 ts => rfl

theorem splitWs_map (f : Char → Char) (hf : ∀ c, isWs (f c) = isWs c)
    (l : List Char) : splitWs (l.map f) = (splitWs l).map (List.map f) := by
  rw [splitWs, splitWs, splitAux_map f hf, List.filter_map]
  congr 1
  apply List.filter_congr
  intro t _
  cases t <;> rfl

end PerfumeMatchingEngine


namespace PerfumeMatchingEngine

/-! ### Lemmas about joining and stripping -/

theorem joinSp_head (ts : List (List Char)) (hne : ts ≠ [])
    (h : ∀ t ∈ ts, t ≠ [] ∧ ∀ c ∈ t, isWs c = false) :
    ∃ x xs, joinSp ts = x :: xs ∧ isWs x = false := by
  cases ts with
  | nil => exact absurd rfl hne
  | cons t ts' =>
    obtain ⟨htne, htws⟩ := h t (List.mem_cons_self _ _)
    cases t with
    | nil => exact absurd rfl htne
    | cons x t' =>
      cases ts' with
      | nil => exact ⟨x, t', rfl, htws x (List.mem_cons_self _ _)⟩
      | cons t2 ts2 =>
        exact ⟨x, t' ++ ' ' :: joinSp (t2 :: ts2), rfl,
          htws x (List.mem_cons_self _ _)⟩

theorem joinSp_last (ts : List (List Char)) (hne : ts ≠ [])
    (h : ∀ t ∈ ts, t ≠ [] ∧ ∀ c ∈ t, isWs c = false) :
    ∃ x xs, (joinSp ts).reverse = x :: xs ∧ isWs x = false := by
  induction ts with
  | nil => exact absurd rfl hne
  | cons t ts' ih =>
    obtain ⟨htne, htws⟩ := h t (List.mem_cons_self _ _)
    cases ts' with
    | nil =>
      cases hr : t.reverse with
      | nil => exact absurd (List.reverse_eq_nil_iff.mp hr) htne
      | cons x xs =>
        refine ⟨x, xs, hr, ?_⟩
        exact htws x (List.mem_reverse.mp (by rw [hr]; exact List.mem_cons_self _ _))
    | cons t2 ts2 =>
      obtain ⟨x, xs, hx, hxws⟩ := ih (List.cons_ne_nil _ _)
        (fun u hu => h u (List.mem_cons_of_mem _ hu))
      refine ⟨x, (xs ++ [' ']) ++ t.reverse, ?_, hxws⟩
      rw [show joinSp (t :: t2 :: ts2) = t ++ ' ' :: joinSp (t2 :: ts2) from rfl,
        List.reverse_append, List.reverse_cons, hx]
      rfl

theorem stripL_joinSp (ts : List (List Char))
    (h : ∀ t ∈ ts, t ≠ [] ∧ ∀ c ∈ t, isWs c = false) :
    stripL (joinSp ts) = joinSp ts := by
  cases hts : ts with
  | nil => rfl
  | cons t ts' =>
    subst hts
    obtain ⟨x, xs, hx, hxws⟩ := joinSp_head (t :: ts') (List.cons_ne_nil _ _) h
    obtain ⟨y, ys, hy, hyws⟩ := joinSp_last (t :: ts') (List.cons_ne_nil _ _) h
    have h1 : (joinSp (t :: ts')).dropWhile isWs = joinSp (t :: ts') := by
      rw [hx, List.dropWhile_cons, if_neg (by simp [hxws])]
    have h2 : (joinSp (t :: ts')).reverse.dropWhile isWs = (joinSp (t :: ts')).reverse := by
      rw [hy, List.dropWhile_cons, if_neg (by simp [hyws])]
    rw [stripL, h1, h2, List.reverse_reverse]

theorem splitWs_joinSp (ts : List (List Char))
    (h : ∀ t ∈ ts, t ≠ [] ∧ ∀ c ∈ t, isWs c = false) :
    splitWs (joinSp ts) = ts := by
  induction ts with
  | nil => rfl
  | cons t ts' ih =>
    obtain ⟨htne, htws⟩ := h t (List.mem_cons_self _ _)
    cases ts' with
    | nil => exact splitWs_wsFree t htne htws
    | cons t2 ts2 =>
      rw [show joinSp (t :: t2 :: ts2) = t ++ ' ' :: joinSp (t2 :: ts2) from rfl,
        splitWs_append_ws _ _ ' ' (by decide), splitWs_wsFree t htne htws,
        ih (fun u hu => h u (List.mem_cons_of_mem _ hu))]
      rfl

theorem mem_joinSp (ts : List (List Char)) :
    ∀ x ∈ joinSp ts, x = ' ' ∨ ∃ t ∈ ts, x ∈ t := by
  induction ts with
  | nil => intro x hx; simp [joinSp] at hx
  | cons t ts' ih =>
    intro x hx
    cases ts' with
    | nil => exact Or.inr ⟨t, List.mem_cons_self _ _, hx⟩
    | cons t2 ts2 =>
      rw [show joinSp (t :: t2 :: ts2) = t ++ ' ' :: joinSp (t2 :: ts2) from rfl] at hx
      rcases List.mem_append.mp hx with h1 | h1
      · exact Or.inr ⟨t, List.mem_cons_self _ _, h1⟩
      · rcases List.mem_cons.mp h1 with h2 | h2
        · exact Or.inl h2
        · rcases ih x h2 with h3 | ⟨u, hu, hxu⟩
          · exact Or.inl h3
          · exact Or.inr ⟨u, List.mem_cons_of_mem _ hu, hxu⟩

theorem mem_stripL (l : List Char) : ∀ x ∈ stripL l, x ∈ l := by
  intro x hx
  rw [stripL] at hx
  have h1 := List.mem_reverse.mp hx
  have h2 := List.Sublist.mem h1 (List.dropWhile_sublist _)
  have h3 := List.mem_reverse.mp h2
  exact List.Sublist.mem h3 (List.dropWhile_sublist _)

/-! ### The token order used by sorting -/

theorem lexLe_cons_iff (x y : Char) (xs ys : List Char) :
    lexLe (x :: xs) (y :: ys) = true ↔
      x.toNat < y.toNat ∨ (x.toNat = y.toNat ∧ lexLe xs ys = true) := by
  simp only [lexLe]
  split_ifs with h1 h2
  · simp [h1]
  · constructor
    · intro h; cases h
    · intro h
      rcases h with h | ⟨h, _⟩ <;> omega
  · constructor
    · intro h
      right
      exact ⟨by omega, h⟩
    · intro h
      rcases h with h | ⟨_, h⟩
      · omega
      · exact h

theorem lexLe_nil_left (b : List Char) : lexLe [] b = true := by
  cases b <;> rfl

theorem lexLe_total : ∀ a b : List Char, (lexLe a b || lexLe b a) = true := by
  intro a
  induction a with
  | nil => intro b; simp [lexLe_nil_left]
  | cons x xs ih =>
    intro b
    cases b with
    | nil => simp [lexLe_nil_left]
    | cons y ys =>
      rw [Bool.or_eq_true, lexLe_cons_iff, lexLe_cons_iff]
      rcases Nat.lt_trichotomy x.toNat y.toNat with h | h | h
      · left; left; exact h
      · rcases (by simpa using ih ys : lexLe xs ys = true ∨ lexLe ys xs = true) with h2 | h2
        · left; right; exact ⟨h, h2⟩
        · right; right; exact ⟨h.symm, h2⟩
      · right; left; exact h

theorem lexLe_trans : ∀ a b c : List Char,
    lexLe a b = true → lexLe b c = true → lexLe a c = true := by
  intro a
  induction a with
  | nil => intro b c _ _; exact lexLe_nil_left c
  | cons x xs ih =>
    intro b c hab hbc
    cases b with
    | nil => simp [lexLe] at hab
    | cons y ys =>
      cases c with
      | nil => simp [lexLe] at hbc
      | cons z zs =>
        rw [lexLe_cons_iff] at hab hbc ⊢
        rcases hab with h1 | ⟨h1, h1r⟩ <;> rcases hbc with h2 | ⟨h2, h2r⟩
        · left; omega
        · left; omega
        · left; omega
        · right; exact ⟨by omega, ih ys zs h1r h2r⟩

theorem lexLe_antisymm : ∀ a b : List Char,
    lexLe a b = true → lexLe b a = true → a = b := by
  intro a
  induction a with
  | nil =>
    intro b _ hba
    cases b with
    | nil => rfl
    | cons y ys => simp [lexLe] at hba
  | cons x xs ih =>
    intro b hab hba
    cases b with
    | nil => simp [lexLe] at hab
    | cons y ys =>
      rw [lexLe_cons_iff] at hab hba
      have hxy : x.toNat = y.toNat := by
        rcases hab with h1 | ⟨h1, _⟩ <;> rcases hba with h2 | ⟨h2, _⟩ <;> omega
      have hx : x = y := Char.ext (UInt32.ext hxy)
      subst hx
      rcases hab with h1 | ⟨_, h1r⟩
      · omega
      · rcases hba with h2 | ⟨_, h2r⟩
        · omega
        · rw [ih ys h1r h2r]

theorem mergeSort_lexLe_sorted (ts : List (List Char)) :
    List.Pairwise (fun a b => lexLe a b = true) (List.mergeSort ts lexLe) :=
  List.sorted_mergeSort lexLe_trans lexLe_total ts

theorem mergeSort_lexLe_eq_of_perm (ts us : List (List Char)) (h : ts.Perm us) :
    List.mergeSort ts lexLe = List.mergeSort us lexLe := by
  letI : IsAntisymm (List Char) (fun a b => lexLe a b = true) :=
    ⟨fun a b h1 h2 => lexLe_antisymm a b h1 h2⟩
  exact List.eq_of_perm_of_sorted
    (((List.mergeSort_perm ts lexLe).trans h).trans (List.mergeSort_perm us lexLe).symm)
    (mergeSort_lexLe_sorted ts) (mergeSort_lexLe_sorted us)

theorem mergeSort_lexLe_of_sorted (ts : List (List Char))
    (h : List.Pairwise (fun a b => lexLe a b = true) ts) :
    List.mergeSort ts lexLe = ts := by
  letI : IsAntisymm (List Char) (fun a b => lexLe a b = true) :=
    ⟨fun a b h1 h2 => lexLe_antisymm a b h1 h2⟩
  exact List.eq_of_perm_of_sorted (List.mergeSort_perm ts lexLe)
    (mergeSort_lexLe_sorted ts) h

end PerfumeMatchingEngine


namespace PerfumeMatchingEngine

/-! ### The fingerprint pipeline through its stages -/

theorem fpList_eq_stages (l : List Char) :
    fpList l = stripL (joinSp (fpToks l)) := rfl

theorem ws_word_or_ws (c : Char) (h : isWs c = true) :
    (isWordCh c || isWs c) = true := by
  rw [h, Bool.or_true]

theorem ws_not_digit (c : Char) (h : isWs c = true) : isDigitCh c = false := by
  rcases Bool.eq_false_or_eq_true (isDigitCh c) with hd | hd
  · exfalso
    simp only [isWs, Bool.or_eq_true, beq_iff_eq] at h
    simp only [isDigitCh, Bool.or_eq_true, Bool.and_eq_true, decide_eq_true_eq] at hd
    omega
  · exact hd

theorem noise_words_ok :
    ∀ w ∈ NOISE, w.data ≠ [] ∧ ∀ x ∈ w.data, isWs x = false := by decide

theorem mem_fpChars (l : List Char) :
    ∀ x ∈ fpChars l,
      (isWordCh x || isWs x) = true ∧ isDigitCh x = false ∧
        ∃ c, x = taChar (alifChar (Char.toLower c)) := by
  intro x hx
  simp only [fpChars] at hx
  obtain ⟨hx1, hnd⟩ := List.mem_filter.mp hx
  obtain ⟨hx2, hww⟩ := List.mem_filter.mp hx1
  have hx3 := mem_foldRemove NOISE _ x hx2
  obtain ⟨x2, hx4, hxeq2⟩ := List.mem_map.mp hx3
  obtain ⟨x1, hx5, hxeq1⟩ := List.mem_map.mp hx4
  obtain ⟨c, _, hxeq0⟩ := List.mem_map.mp hx5
  refine ⟨hww, by simpa using hnd, c, ?_⟩
  rw [← hxeq2, ← hxeq1, ← hxeq0]

theorem mem_fpToks (l : List Char) :
    ∀ t ∈ fpToks l, t ≠ [] ∧ ∀ c ∈ t, isWs c = false ∧ c ∈ fpChars l := by
  intro t ht
  have hmem : t ∈ splitWs (fpChars l) :=
    ((List.mergeSort_perm (splitWs (fpChars l)) lexLe).mem_iff).mp ht
  exact mem_splitWs _ t hmem

theorem mem_fpList (l : List Char) :
    ∀ x ∈ fpList l, x = ' ' ∨ x ∈ fpChars l := by
  intro x hx
  rw [fpList_eq_stages] at hx
  have h1 := mem_stripL _ x hx
  rcases mem_joinSp _ x h1 with h2 | ⟨t, ht, hxt⟩
  · exact Or.inl h2
  · exact Or.inr ((mem_fpToks l t ht).2 x hxt).2

theorem fpList_char_fixed (l : List Char) :
    ∀ x ∈ fpList l,
      Char.toLower x = x ∧ alifChar x = x ∧ taChar x = x ∧
        (isWordCh x || isWs x) = true ∧ isDigitCh x = false := by
  intro x hx
  rcases mem_fpList l x hx with h | h
  · subst h
    refine ⟨by decide, by decide, by decide, by decide, by decide⟩
  · obtain ⟨hww, hnd, c, hc⟩ := mem_fpChars l x h
    subst hc
    exact ⟨toLower_fixed_pipe c, alifChar_fixed_pipe _, taChar_fixed_pipe _, hww, hnd⟩

theorem fpToks_clean (l : List Char) :
    ∀ t ∈ fpToks l, t ≠ [] ∧ ∀ c ∈ t, isWs c = false :=
  fun t ht => ⟨(mem_fpToks l t ht).1, fun c hc => ((mem_fpToks l t ht).2 c hc).1⟩

/-- Core of the amended C7: the fingerprint pipeline is a fixed point
on any of its own outputs that contains no noise word. -/
theorem fpList_fpList (l : List Char)
    (h : ∀ w ∈ NOISE, containsSub (fpList l) w.data = false) :
    fpList (fpList l) = fpList l := by
  have hchars := fpList_char_fixed l
  have hmap1 : (fpList l).map Char.toLower = fpList l :=
    map_eq_self_of _ (fun x hx => (hchars x hx).1)
  have hmap2 : (fpList l).map alifChar = fpList l :=
    map_eq_self_of _ (fun x hx => (hchars x hx).2.1)
  have hmap3 : (fpList l).map taChar = fpList l :=
    map_eq_self_of _ (fun x hx => (hchars x hx).2.2.1)
  have hnf : noiseFold (fpList l) = fpList l := foldRemove_id NOISE _ h
  have hf1 : (fpList l).filter (fun c => isWordCh c || isWs c) = fpList l :=
    List.filter_eq_self.mpr (fun x hx => (hchars x hx).2.2.2.1)
  have hf2 : (fpList l).filter (fun c => !isDigitCh c) = fpList l :=
    List.filter_eq_self.mpr (fun x hx => by
      rw [(hchars x hx).2.2.2.2]; rfl)
  have hstage : fpChars (fpList l) = fpList l := by
    rw [fpChars, hmap1, hmap2, hmap3, hnf, hf1, hf2]
  have htoks := fpToks_clean l
  have hout : fpList l = joinSp (fpToks l) := by
    rw [fpList_eq_stages, stripL_joinSp _ htoks]
  have hsplit : splitWs (fpList l) = fpToks l := by
    conv_lhs => rw [hout]
    exact splitWs_joinSp _ htoks
  have hsorted : List.Pairwise (fun a b => lexLe a b = true) (fpToks l) :=
    mergeSort_lexLe_sorted _
  have hms : List.mergeSort (fpToks l) lexLe = fpToks l :=
    mergeSort_lexLe_of_sorted _ hsorted
  calc fpList (fpList l)
      = stripL (joinSp (List.mergeSort (splitWs (fpChars (fpList l))) lexLe)) := rfl
    _ = stripL (joinSp (List.mergeSort (fpToks l) lexLe)) := by rw [hstage, hsplit]
    _ = stripL (joinSp (fpToks l)) := by rw [hms]
    _ = fpList l := (fpList_eq_stages l).symm

theorem splitWs_fpChars (l : List Char) :
    splitWs (fpChars l) =
      List.filter (fun t => !t.isEmpty)
        (List.map (List.filter (fun c => !isDigitCh c))
          (List.filter (fun t => !t.isEmpty)
            (List.map (List.filter (fun c => isWordCh c || isWs c))
              (List.filter (fun t => !t.isEmpty)
                (List.map noiseFold
                  (List.map (List.map taChar)
                    (List.map (List.map alifChar)
                      (List.map (List.map Char.toLower) (splitWs l))))))))) := by
  have s1 : splitWs (l.map Char.toLower) = (splitWs l).map (List.map Char.toLower) :=
    splitWs_map _ isWs_toLower l
  have s2 : splitWs ((l.map Char.toLower).map alifChar) =
      ((splitWs l).map (List.map Char.toLower)).map (List.map alifChar) := by
    rw [splitWs_map _ isWs_alifChar, s1]
  have s3 : splitWs (((l.map Char.toLower).map alifChar).map taChar) =
      (((splitWs l).map (List.map Char.toLower)).map (List.map alifChar)).map
        (List.map taChar) := by
    rw [splitWs_map _ isWs_taChar, s2]
  have s4 : splitWs (noiseFold (((l.map Char.toLower).map alifChar).map taChar)) =
      ((splitWs (((l.map Char.toLower).map alifChar).map taChar)).map
        noiseFold).filter (fun t => !t.isEmpty) :=
    splitWs_dist noiseFold
      (fun a c b hc => foldRemove_append_ws NOISE noise_words_ok c hc a b)
      (fun t ht c hc => ht c (mem_foldRemove NOISE t c hc))
      (foldRemove_nil NOISE) _
  have s5 : splitWs ((noiseFold (((l.map Char.toLower).map alifChar).map
      taChar)).filter (fun c => isWordCh c || isWs c)) =
      ((splitWs (noiseFold (((l.map Char.toLower).map alifChar).map
        taChar))).map (List.filter (fun c => isWordCh c || isWs c))).filter
          (fun t => !t.isEmpty) :=
    splitWs_dist _
      (fun a c b hc => by
        rw [List.filter_append,
          @List.filter_cons_of_pos _ (fun c => isWordCh c || isWs c) c b
            (ws_word_or_ws c hc)])
      (fun t ht c hc => ht c (List.mem_filter.mp hc).1)
      rfl _
  have s6 : splitWs (fpChars l) =
      ((splitWs ((noiseFold (((l.map Char.toLower).map alifChar).map
        taChar)).filter (fun c => isWordCh c || isWs c))).map
          (List.filter (fun c => !isDigitCh c))).filter
            (fun t => !t.isEmpty) :=
    splitWs_dist _
      (fun a c b hc => by
        rw [List.filter_append,
          @List.filter_cons_of_pos _ (fun c => !isDigitCh c) c b
            (by simpa using ws_not_digit c hc)])
      (fun t ht c hc => ht c (List.mem_filter.mp hc).1)
      rfl _
  rw [s6, s5, s4, s3]

/-- Core of C8: the fingerprint depends only on the multiset of raw
whitespace tokens. -/
theorem fpList_eq_of_splitWs_perm (l1 l2 : List Char)
    (h : (splitWs l1).Perm (splitWs l2)) : fpList l1 = fpList l2 := by
  have hp : (splitWs (fpChars l1)).Perm (splitWs (fpChars l2)) := by
    have p1 := h.map (List.map Char.toLower)
    have p2 := p1.map (List.map alifChar)
    have p3 := p2.map (List.map taChar)
    have p4 := p3.map noiseFold
    have p5 := List.Perm.filter (fun t => !t.isEmpty) p4
    have p6 := p5.map (List.filter (fun c => isWordCh c || isWs c))
    have p7 := List.Perm.filter (fun t => !t.isEmpty) p6
    have p8 := p7.map (List.filter (fun c => !isDigitCh c))
    have p9 := List.Perm.filter (fun t => !t.isEmpty) p8
    rw [splitWs_fpChars l1, splitWs_fpChars l2]
    exact p9
  have hms : List.mergeSort (splitWs (fpChars l1)) lexLe =
      List.mergeSort (splitWs (fpChars l2)) lexLe :=
    mergeSort_lexLe_eq_of_perm _ _ hp
  rw [fpList_eq_stages, fpList_eq_stages, fpToks, fpToks, hms]

/-! ### C7 : fingerprint idempotence -/

set_option maxRecDepth 8192 in
unseal removeAll List.merge List.mergeSort in
/-- C7 counterexample: fingerprinting `"d.e"` yields `"de"` (the dot is
stripped after noise removal), and fingerprinting that output again
strips the noise word `"de"` to the empty string, so the fingerprint
function is not idempotent on every input. -/
theorem C7_counterexample :
    _fingerprint (Cell.str (_fingerprint (Cell.str ("d.e")))) ≠
      _fingerprint (Cell.str ("d.e")) := by decide

/-- C7 (amended): the fingerprint function is idempotent on every input
whose fingerprint contains no noise word as a substring — noise removal
can splice a noise word together out of surrounding characters, and on
such outputs (and only such) a second application differs. -/
theorem C7_fingerprint_idempotent (s : String)
    (h : ∀ w ∈ NOISE, containsSub (_fingerprint (Cell.str s)).data w.data = false) :
    _fingerprint (Cell.str (_fingerprint (Cell.str s))) = _fingerprint (Cell.str s) :=
  congrArg String.mk (fpList_fpList s.data h)

unseal removeAll List.merge List.mergeSort in
/-- C7 witness at a concrete noise-free input. -/
theorem C7_fingerprint_idempotent_witness :
    _fingerprint (Cell.str (_fingerprint (Cell.str ("Chanel Bleu")))) =
      _fingerprint (Cell.str ("Chanel Bleu")) :=
  C7_fingerprint_idempotent ("Chanel Bleu") (by decide)

/-! ### C8 : word-order invariance -/

/-- C8: two names whose whitespace-separated token lists are
permutations of each other fingerprint identically — the pipeline acts
on tokens independently (noise words contain no whitespace, so literal
removal never crosses a token boundary) and the final sort cancels the
order. -/
theorem C8_order_invariant (s t : String)
    (h : (splitWs s.data).Perm (splitWs t.data)) :
    _fingerprint (Cell.str s) = _fingerprint (Cell.str t) :=
  congrArg String.mk (fpList_eq_of_splitWs_perm s.data t.data h)

unseal removeAll List.merge List.mergeSort in
/-- C8 witness at the specification's concrete example pair. -/
theorem C8_order_invariant_witness :
    _fingerprint (Cell.str ("Chanel No 5 100ml")) =
      _fingerprint (Cell.str ("100ml No 5 Chanel")) :=
  C8_order_invariant ("Chanel No 5 100ml") ("100ml No 5 Chanel") (by decide)

end PerfumeMatchingEngine
